import Mathlib

/-!
Verification of the retrieval-and-ranking engine of the repository
(`search_frontend.py`, `eval_queries.py`, `scripts/ap10_selfcheck.py`).

Shallow embedding conventions:
* Python dicts that map keys to values are modelled as association lists
  (`List (κ × α)`); a `defaultdict` accumulation `m[k] += x` is `addVal`,
  which updates the entry of `k` in place (dict keys are unique; dicts
  preserve insertion order, so a missing key is appended at the end).
* Python sets of document ids are `Finset ℕ`.  Iteration order over a
  Python set is implementation defined; wherever the code iterates a set
  and the order matters for the output (the final loop of `/search`),
  the enumeration order is an explicit `List ℕ` parameter.
* Floating point arithmetic is idealised as real arithmetic (`ℝ`),
  `math.log10` as `Real.logb 10`; the rational-valued evaluation metrics
  use `ℚ`.  A Python `ZeroDivisionError` is modelled by returning `none`.
* An inverted index (`InvertedIndex` of the excluded storage layer) is a
  read-only snapshot: its `df` dict and the posting lists returned by
  `read_a_posting_list` are both association lists.
-/

namespace IR

/-- Lookup in an association list: first entry for the key, like a Python
dict access. -/
def lookupO [DecidableEq κ] : List (κ × α) → κ → Option α
  | [], _ => none
  | (a, b) :: rest, k => if k = a then some b else lookupO rest k

/-- Python `d.get(k, dflt)`. -/
def lookupD [DecidableEq κ] (m : List (κ × α)) (k : κ) (d : α) : α :=
  (lookupO m k).getD d

/-- `defaultdict` accumulation `m[k] += x`: update the (unique) entry of
`k` in place, or append `default() + x = 0 + x` at the end, as Python
dicts preserve insertion order. -/
def addVal [AddMonoid α] : List (ℕ × α) → ℕ → α → List (ℕ × α)
  | [], k, x => [(k, 0 + x)]
  | (a, b) :: rest, k, x =>
    if a = k then (a, b + x) :: rest else (a, b) :: addVal rest k x

theorem lookupD_addVal [AddMonoid α] (m : List (ℕ × α)) (k j : ℕ) (x : α) :
    lookupD (addVal m k x) j 0 = lookupD m j 0 + if k = j then x else 0 := by
  induction m with
  | nil =>
    by_cases h : k = j
    · subst h; simp [addVal, lookupD, lookupO]
    · have h2 : ¬ j = k := fun h' => h h'.symm
      simp [addVal, lookupD, lookupO, h, h2]
  | cons p rest ih =>
    obtain ⟨a, b⟩ := p
    simp only [lookupD, lookupO] at ih ⊢
    by_cases hak : a = k
    · subst hak
      rw [addVal, if_pos rfl]
      by_cases hja : j = a
      · subst hja
        simp [lookupO]
      · have h2 : ¬ a = j := fun h' => hja h'.symm
        simp [lookupO, hja, h2]
    · rw [addVal, if_neg hak]
      by_cases hja : j = a
      · subst hja
        have h2 : ¬ k = j := fun h' => hak h'.symm
        simp [lookupO, h2]
      · simp [lookupO, hja, ih]

/-- Python `Counter(tokens).items()`: each distinct token with its
multiplicity.  (`Counter` iterates in first-insertion order; the engine
only folds commutative additions over it, so the order of `List.dedup`
is equally good.) -/
def counter (tokens : List String) : List (String × ℕ) :=
  tokens.dedup.map fun t => (t, tokens.count t)

theorem counter_pos {tokens : List String} {p : String × ℕ}
    (h : p ∈ counter tokens) : 1 ≤ p.2 := by
  obtain ⟨t, ht, rfl⟩ := List.mem_map.1 h
  exact List.count_pos_iff.2 (List.mem_dedup.1 ht)

/-- The candidate-set restriction test of the scorers:
`cand_set is None or doc_id in cand_set`. -/
def allowedB : Option (Finset ℕ) → ℕ → Bool
  | none, _ => true
  | some s, d => decide (d ∈ s)

/-- An inverted-index snapshot: the `df` dict and, for each term, the
posting list `read_a_posting_list` would return (pairs `(doc_id, tf)`).
Terms absent from `postings` have the empty posting list. -/
structure InvIndex where
  df : List (String × ℕ)
  postings : List (String × List (ℕ × ℕ))

/-- `read_posting_list(index_obj, term)`. -/
def read_posting_list (idx : InvIndex) (t : String) : List (ℕ × ℕ) :=
  lookupD idx.postings t []

theorem mem_of_lookupO [DecidableEq κ] {l : List (κ × α)} {k : κ} {v : α}
    (h : lookupO l k = some v) : (k, v) ∈ l := by
  induction l with
  | nil => simp [lookupO] at h
  | cons p rest ih =>
    obtain ⟨a, b⟩ := p
    by_cases hk : k = a
    · subst hk
      rw [lookupO, if_pos rfl] at h
      cases h
      exact List.mem_cons_self _ _
    · rw [lookupO, if_neg hk] at h
      exact List.mem_cons_of_mem _ (ih h)

/-! ## Configuration constants (`search_frontend.py`) -/

def N_CORPUS : ℕ := 6300000
def MAX_CANDIDATES : ℕ := 100000
def MAX_POSTINGS_PER_TERM : ℕ := 50000
def MAX_RESULTS : ℕ := 100

/-! ## Candidate generation (`build_candidates`) -/

/-- Inner loop of `build_candidates`: add the doc ids of one (already
truncated) posting list to the candidate set; the returned flag records
the early `return cand` taken once `len(cand) >= max_candidates`. -/
def addDocs (cap : ℕ) : List (ℕ × ℕ) → Finset ℕ → Finset ℕ × Bool
  | [], cand => (cand, false)
  | e :: rest, cand =>
    let c := insert e.1 cand
    if cap ≤ c.card then (c, true) else addDocs cap rest c

/-- Outer loop of `build_candidates` over the df-sorted terms. -/
def buildLoop (idx : InvIndex) (cap : ℕ) : List (ℕ × String) → Finset ℕ → Finset ℕ
  | [], cand => cand
  | p :: rest, cand =>
    let r := addDocs cap ((read_posting_list idx p.2).take MAX_POSTINGS_PER_TERM) cand
    if r.2 then r.1 else buildLoop idx cap rest r.1

/-- Python sorts the `(df, term)` pairs lexicographically (rare first). -/
def termLe (a b : ℕ × String) : Prop :=
  a.1 < b.1 ∨ (a.1 = b.1 ∧ a.2 ≤ b.2)

instance : DecidableRel termLe := fun a b => by
  unfold termLe; infer_instance

/-- The loop body collecting `(df, t)` for terms with truthy df
(`df = body_index.df.get(t); if df:` skips both a missing term and
`df == 0`). -/
def candKey (idx : InvIndex) (t : String) : Option (ℕ × String) :=
  match lookupO idx.df t with
  | none => none
  | some d => if d = 0 then none else some (d, t)

/-- Truthiness of a term's body df, the same test as `candKey`. -/
def inVocab (idx : InvIndex) (t : String) : Bool :=
  match lookupO idx.df t with
  | none => false
  | some d => decide (d ≠ 0)

/-- The `(df, term)` pairs of the distinct query tokens with truthy df,
sorted ascending — `terms.sort()` in the source. -/
def sortedTerms (idx : InvIndex) (tokens : List String) : List (ℕ × String) :=
  List.insertionSort termLe (tokens.dedup.filterMap (candKey idx))

/-- `build_candidates(query_tokens, max_candidates)`: capped candidate
set from the body index, rare terms first. -/
def build_candidates (idx : InvIndex) (tokens : List String) (cap : ℕ) : Finset ℕ :=
  if tokens = [] then ∅ else buildLoop idx cap (sortedTerms idx tokens) ∅

/-! ## Evaluation metrics (`eval_queries.py`) -/

/-- Python slice `xs[:k]` for an `int` bound `k` (a negative bound drops
elements from the end). -/
def pySlice (k : ℤ) (xs : List String) : List String :=
  if 0 ≤ k then xs.take k.toNat else xs.take (xs.length - (-k).toNat)

/-- The loop of `ap_at_k`: running over the ranked prefix with positions
`i = 1, 2, ...`, threading `hits` and accumulating `hits / i` at each
relevant hit.  Returns (final hits, accumulated sum). -/
def apLoop (rels : List String) : List String → ℕ → ℕ → ℕ × ℚ
  | [], _, hits => (hits, 0)
  | d :: ds, i, hits =>
    if d ∈ rels then
      let r := apLoop rels ds (i + 1) (hits + 1)
      (r.1, ((hits : ℚ) + 1) / (i : ℚ) + r.2)
    else apLoop rels ds (i + 1) hits

/-- `ap_at_k(rels, ranked_doc_ids, k)`.  Python raises
`ZeroDivisionError` when `min(len(rels), k) == 0`; that is `none`. -/
def ap_at_k (rels ranked : List String) (k : ℤ) : Option ℚ :=
  if rels = [] then some 0
  else if min (rels.length : ℤ) k = 0 then none
  else some ((apLoop rels (pySlice k ranked) 1 0).2
    / ((min (rels.length : ℤ) k : ℤ) : ℚ))

/-- `precision_at_k(rels, ranked_doc_ids, k)`. -/
def precision_at_k (rels ranked : List String) (k : ℤ) : Option ℚ :=
  if k ≤ 0 then some 0
  else some ((((pySlice k ranked).filter fun d => decide (d ∈ rels)).length : ℚ) / (k : ℚ))

/-- `recall_at_k(rels, ranked_doc_ids, k)`. -/
def recall_at_k (rels ranked : List String) (k : ℤ) : Option ℚ :=
  if rels = [] then some 0
  else some ((((pySlice k ranked).filter fun d => decide (d ∈ rels)).length : ℚ) / (rels.length : ℚ))

/-! ## Field scoring (`tfidf_body_scores`, `binary_match_count`) -/

/-- `math.log10`. -/
noncomputable def log10 (x : ℝ) : ℝ := Real.logb 10 x

/-- `idf = math.log10((N_CORPUS + 1.0) / (df + 1.0))`. -/
noncomputable def idf (df : ℕ) : ℝ := log10 (((N_CORPUS : ℝ) + 1) / ((df : ℝ) + 1))

/-- Query-side weight `wq = (1.0 + math.log10(qcnt)) * idf`. -/
noncomputable def wq (qtf df : ℕ) : ℝ := (1 + log10 (qtf : ℝ)) * idf df

/-- Document-side weight `wd = (1.0 + math.log10(tf)) * idf`. -/
noncomputable def wd (tf df : ℕ) : ℝ := (1 + log10 (tf : ℝ)) * idf df

/-- One iteration of the term loop of `tfidf_body_scores`: skip the term
when its df is missing or zero (`if not df: continue`), otherwise
accumulate `wq * wd` over its postings restricted to the candidates. -/
noncomputable def bodyStep (idx : InvIndex) (cands : Option (Finset ℕ))
    (m : List (ℕ × ℝ)) (p : String × ℕ) : List (ℕ × ℝ) :=
  match lookupO idx.df p.1 with
  | none => m
  | some dfv =>
    if dfv = 0 then m
    else
      (read_posting_list idx p.1).foldl
        (fun m e => if allowedB cands e.1 then addVal m e.1 (wq p.2 dfv * wd e.2 dfv) else m) m

/-- `tfidf_body_scores(query_tokens, candidates)`: the accumulated
`defaultdict(float)` as an association list.  (The guard for a missing
body index or an empty query returns the empty dict, which is also what
the fold over an empty `Counter` produces.) -/
noncomputable def tfidf_body_scores (idx : InvIndex) (tokens : List String)
    (cands : Option (Finset ℕ)) : List (ℕ × ℝ) :=
  (counter tokens).foldl (bodyStep idx cands) []

/-- One iteration of the term loop of `binary_match_count`: the term
counts when it is present in the field's `df` dict (`term not in
index_obj.df` — presence, not truthiness). -/
def binStep (idx : InvIndex) (cands : Option (Finset ℕ))
    (m : List (ℕ × ℕ)) (t : String) : List (ℕ × ℕ) :=
  if (lookupO idx.df t).isSome then
    (read_posting_list idx t).foldl
      (fun m e => if allowedB cands e.1 then addVal m e.1 1 else m) m
  else m

/-- `binary_match_count(index_obj, query_tokens, candidates)`: counts
how many distinct query tokens appear in each doc, restricted to the
candidates.  The Python loop runs over `set(query_tokens)`; addition is
commutative, so folding over `tokens.dedup` builds the same counts. -/
def binary_match_count (idx : InvIndex) (tokens : List String)
    (cands : Option (Finset ℕ)) : List (ℕ × ℕ) :=
  tokens.dedup.foldl (binStep idx cands) []

/-- Generic accumulation lemma: a fold of guarded `addVal` updates adds,
at each key `j`, the sum of the guarded contributions with that key. -/
theorem lookupD_foldl_addVal [AddCommMonoid α] (key : ε → ℕ) (cnd : ε → Bool)
    (w : ε → α) (l : List ε) : ∀ (m : List (ℕ × α)) (j : ℕ),
    lookupD (l.foldl (fun m e => if cnd e then addVal m (key e) (w e) else m) m) j 0
      = lookupD m j 0 + (l.map fun e => if cnd e ∧ key e = j then w e else 0).sum := by
  induction l with
  | nil => simp
  | cons e l ih =>
    intro m j
    simp only [List.foldl_cons, List.map_cons, List.sum_cons]
    by_cases hc : cnd e
    · rw [if_pos hc, ih, lookupD_addVal]
      by_cases hk : key e = j
      · rw [if_pos hk, if_pos ⟨hc, hk⟩, add_assoc]
      · rw [if_neg hk, if_neg (fun h => hk h.2), add_zero, zero_add]
    · rw [if_neg hc, ih, if_neg (fun h : cnd e ∧ _ => hc h.1), zero_add]

/-- The total contribution of one `Counter` entry `(term, qtf)` to a
given document's body score. -/
noncomputable def bodyTermContrib (idx : InvIndex) (cands : Option (Finset ℕ))
    (doc : ℕ) (p : String × ℕ) : ℝ :=
  match lookupO idx.df p.1 with
  | none => 0
  | some dfv =>
    if dfv = 0 then 0
    else
      ((read_posting_list idx p.1).map fun e =>
        if allowedB cands e.1 ∧ e.1 = doc then wq p.2 dfv * wd e.2 dfv else 0).sum

theorem lookupD_bodyStep (idx : InvIndex) (cands : Option (Finset ℕ))
    (m : List (ℕ × ℝ)) (p : String × ℕ) (doc : ℕ) :
    lookupD (bodyStep idx cands m p) doc 0
      = lookupD m doc 0 + bodyTermContrib idx cands doc p := by
  unfold bodyStep bodyTermContrib
  cases lookupO idx.df p.1 with
  | none => simp
  | some dfv =>
    by_cases h0 : dfv = 0
    · simp [h0]
    · simp only [h0, if_neg h0]
      exact lookupD_foldl_addVal (fun e : ℕ × ℕ => e.1)
        (fun e : ℕ × ℕ => allowedB cands e.1)
        (fun e : ℕ × ℕ => wq p.2 dfv * wd e.2 dfv) _ m doc

/-- Closed form of the body-score map: the value at `doc` is the sum of
the per-term contributions. -/
theorem tfidf_lookup (idx : InvIndex) (tokens : List String)
    (cands : Option (Finset ℕ)) (doc : ℕ) :
    lookupD (tfidf_body_scores idx tokens cands) doc 0
      = ((counter tokens).map (bodyTermContrib idx cands doc)).sum := by
  unfold tfidf_body_scores
  generalize counter tokens = ts
  suffices h : ∀ m, lookupD (ts.foldl (bodyStep idx cands) m) doc 0
      = lookupD m doc 0 + (ts.map (bodyTermContrib idx cands doc)).sum by
    simpa [lookupD, lookupO] using h []
  induction ts with
  | nil => simp
  | cons p ts ih =>
    intro m
    simp only [List.foldl_cons, List.map_cons, List.sum_cons]
    rw [ih, lookupD_bodyStep, add_assoc]

/-- The contribution of one distinct query term to a given document's
binary (title/anchor) match count. -/
def binTermContrib (idx : InvIndex) (cands : Option (Finset ℕ))
    (doc : ℕ) (t : String) : ℕ :=
  if (lookupO idx.df t).isSome then
    ((read_posting_list idx t).map fun e =>
      if allowedB cands e.1 ∧ e.1 = doc then 1 else 0).sum
  else 0

theorem lookupD_binStep (idx : InvIndex) (cands : Option (Finset ℕ))
    (m : List (ℕ × ℕ)) (t : String) (doc : ℕ) :
    lookupD (binStep idx cands m t) doc 0
      = lookupD m doc 0 + binTermContrib idx cands doc t := by
  unfold binStep binTermContrib
  by_cases h : (lookupO idx.df t).isSome
  · simp only [h, if_pos h]
    exact lookupD_foldl_addVal (fun e : ℕ × ℕ => e.1)
      (fun e : ℕ × ℕ => allowedB cands e.1) (fun _ => 1) _ m doc
  · simp [h]

/-- Closed form of the binary match-count map. -/
theorem binary_lookup (idx : InvIndex) (tokens : List String)
    (cands : Option (Finset ℕ)) (doc : ℕ) :
    lookupD (binary_match_count idx tokens cands) doc 0
      = (tokens.dedup.map (binTermContrib idx cands doc)).sum := by
  unfold binary_match_count
  generalize tokens.dedup = ts
  suffices h : ∀ m, lookupD (ts.foldl (binStep idx cands) m) doc 0
      = lookupD m doc 0 + (ts.map (binTermContrib idx cands doc)).sum by
    simpa [lookupD, lookupO] using h []
  induction ts with
  | nil => simp
  | cons t ts ih =>
    intro m
    simp only [List.foldl_cons, List.map_cons, List.sum_cons]
    rw [ih, lookupD_binStep, add_assoc]

/-! ## The query handlers (`/search`, `/search_title`, `/search_anchor`)

`heapq.nlargest(n, l, key=k)` is documented to be equivalent to
`sorted(l, key=k, reverse=True)[:n]`: a stable descending sort followed
by a prefix.  `List.insertionSort r` with `r a b` = "`a` may come before
`b`", i.e. `key b ≤ key a`, is exactly that stable descending sort. -/

structure Indexes where
  body : InvIndex
  title : InvIndex
  anchor : InvIndex

/-- Descending order on fused scores (`key=lambda x: x[1]`). -/
def scoreGe (p q : ℕ × ℝ) : Prop := q.2 ≤ p.2

noncomputable instance : DecidableRel scoreGe := fun p q =>
  inferInstanceAs (Decidable (q.2 ≤ p.2))

instance : IsTotal (ℕ × ℝ) scoreGe := ⟨fun a b => le_total b.2 a.2⟩

instance : IsTrans (ℕ × ℝ) scoreGe := ⟨fun _ _ _ h1 h2 => le_trans h2 h1⟩

/-- The `/search` handler's `ranked` list: fused scores
`1.0*body + 2.0*title + 1.5*anchor` for each candidate, keeping only
positive scores.  `enum` is the order in which Python iterates the
candidate set (implementation defined, hence a parameter). -/
noncomputable def searchRanked (S : Indexes) (tokens : List String)
    (enum : List ℕ) : List (ℕ × ℝ) :=
  let cands := build_candidates S.body tokens MAX_CANDIDATES
  let bodyS := tfidf_body_scores S.body tokens (some cands)
  let titleS := binary_match_count S.title tokens (some cands)
  let anchorS := binary_match_count S.anchor tokens (some cands)
  (enum.map fun d =>
      (d, 1 * lookupD bodyS d 0 + 2 * (Nat.cast (lookupD titleS d 0) : ℝ)
        + 1.5 * (Nat.cast (lookupD anchorS d 0) : ℝ))).filter fun p => decide (0 < p.2)

/-- The `/search` handler's `top` list (`heapq.nlargest(MAX_RESULTS,
ranked, key=lambda x: x[1])`).  The HTTP response is the `__time__`
marker pair followed by `(str(doc_id), doc_title(doc_id))` for these
entries in this order; the early return for an empty candidate set
also produces no result entries, like the empty `ranked` it implies. -/
noncomputable def search (S : Indexes) (tokens : List String)
    (enum : List ℕ) : List (ℕ × ℝ) :=
  (List.insertionSort scoreGe (searchRanked S tokens enum)).take MAX_RESULTS

/-- Descending order on `/search_title`'s sort keys
`(count, -doc_id)` (doc ids are nonnegative, so `str(id).isdigit()`
holds and the key's second component is `-id`). -/
def titleGe (p q : ℕ × ℕ) : Prop := q.2 < p.2 ∨ (q.2 = p.2 ∧ p.1 ≤ q.1)

instance : DecidableRel titleGe := fun a b => by
  unfold titleGe; infer_instance

instance : IsTotal (ℕ × ℕ) titleGe := ⟨fun a b => by unfold titleGe; omega⟩

instance : IsTrans (ℕ × ℕ) titleGe := ⟨fun a b c h1 h2 => by
  unfold titleGe at *; omega⟩

/-- The score dict of `/search_title`: binary title matches restricted
to the body-built candidates. -/
def search_title_scores (S : Indexes) (tokens : List String) : List (ℕ × ℕ) :=
  binary_match_count S.title tokens
    (some (build_candidates S.body tokens MAX_CANDIDATES))

/-- The ranked output of `/search_title`:
`heapq.nlargest(MAX_RESULTS, scores.items(), key=...)`. -/
def search_title_top (S : Indexes) (tokens : List String) : List (ℕ × ℕ) :=
  (List.insertionSort titleGe (search_title_scores S tokens)).take MAX_RESULTS

/-- The score dict of `/search_anchor`. -/
def search_anchor_scores (S : Indexes) (tokens : List String) : List (ℕ × ℕ) :=
  binary_match_count S.anchor tokens
    (some (build_candidates S.body tokens MAX_CANDIDATES))

/-- The ranked output of `/search_anchor` (same ranking as title). -/
def search_anchor_top (S : Indexes) (tokens : List String) : List (ℕ × ℕ) :=
  (List.insertionSort titleGe (search_anchor_scores S tokens)).take MAX_RESULTS

/-! ## Claim C4 — totality of the evaluation metrics -/

/-- C4: the claim says ap_at_k, precision_at_k and recall_at_k never
raise, in particular that no division by zero occurs for `k = 0` with a
non-empty relevant set.  The code divides by `min(len(rels), k) = 0`
there and raises `ZeroDivisionError` (modelled as `none`), while the
guarded cases the claim also lists do hold: empty relevant set gives
`0.0` for ap/recall, and `k <= 0` gives `0.0` for precision. -/
theorem ap_at_k_zero_k_raises :
    ap_at_k ["a"] [] 0 = none ∧
    ap_at_k [] ["x"] 0 = some 0 ∧
    recall_at_k [] ["x"] 5 = some 0 ∧
    precision_at_k ["a"] ["x"] 0 = some 0 ∧
    precision_at_k ["a"] ["x"] (-3) = some 0 := by
  decide

/-! ## Claim C8 — the candidate cap -/

/-- Inner-loop bound: starting strictly below the cap, `addDocs` never
exceeds the cap, and if it did not return early it is still strictly
below the cap. -/
theorem addDocs_card {cap : ℕ} (pl : List (ℕ × ℕ)) :
    ∀ {c : Finset ℕ}, c.card < cap →
      (addDocs cap pl c).1.card ≤ cap ∧
        ((addDocs cap pl c).2 = false → (addDocs cap pl c).1.card < cap) := by
  induction pl with
  | nil => exact fun h => ⟨le_of_lt h, fun _ => h⟩
  | cons e rest ih =>
    intro c h
    have hins : (insert e.1 c).card ≤ cap := by
      calc (insert e.1 c).card ≤ c.card + 1 := Finset.card_insert_le _ _
        _ ≤ cap := h
    by_cases hle : cap ≤ (insert e.1 c).card
    · simp only [addDocs, if_pos hle]
      exact ⟨hins, by simp⟩
    · simp only [addDocs, if_neg hle]
      exact ih (lt_of_not_le hle)

theorem buildLoop_card {idx : InvIndex} {cap : ℕ} (ts : List (ℕ × String)) :
    ∀ {c : Finset ℕ}, c.card < cap → (buildLoop idx cap ts c).card ≤ cap := by
  induction ts with
  | nil => exact fun h => le_of_lt h
  | cons p rest ih =>
    intro c h
    obtain ⟨h1, h2⟩ := addDocs_card
      ((read_posting_list idx p.2).take MAX_POSTINGS_PER_TERM) h
    by_cases hr : (addDocs cap ((read_posting_list idx p.2).take MAX_POSTINGS_PER_TERM) c).2
    · simp only [buildLoop, if_pos hr]
      exact h1
    · simp only [buildLoop, if_neg hr]
      exact ih (h2 (by simpa using hr))

/-- The concrete index of the C8 cap counterexample: one body term with
a single posting. -/
def idxSmall : InvIndex := ⟨[("t", 1)], [("t", [(7, 1)])]⟩

/-- C8 counterexample: the claim includes `cap = 0`, but
`build_candidates` checks `len(cand) >= max_candidates` only after
adding a document, so with cap 0 it returns a set of size 1. -/
theorem build_candidates_cap_zero_exceeded :
    ¬ (build_candidates idxSmall ["t"] 0).card ≤ 0 := by
  decide

/-- C8 amended: for every query token list and every cap at least 1,
`build_candidates` returns at most `cap` document ids (the claim is
true except at `cap = 0`, where the result can have one element). -/
theorem build_candidates_card_le (idx : InvIndex) (tokens : List String)
    (cap : ℕ) (h : 1 ≤ cap) : (build_candidates idx tokens cap).card ≤ cap := by
  unfold build_candidates
  by_cases ht : tokens = []
  · simp [ht]
  · rw [if_neg ht]
    exact buildLoop_card _ (by simpa using h)

/-- Witness for the amended C8 at a concrete cap. -/
theorem build_candidates_card_le_witness :
    1 ≤ 3 ∧ (build_candidates idxSmall ["t"] 3).card ≤ 3 :=
  ⟨by decide, build_candidates_card_le idxSmall ["t"] 3 (by decide)⟩

/-! ## Claim C2 — `build_candidates` vs. the full posting-list union -/

/-- Written from the spec's words for the refinement comparison: the
union of the doc ids appearing in the body posting lists of all
in-vocabulary distinct query terms (no truncation). -/
def fullUnionSpec (idx : InvIndex) (tokens : List String) : Finset ℕ :=
  ((tokens.dedup.filter (inVocab idx)).flatMap
    fun t => (read_posting_list idx t).map Prod.fst).toFinset

/-- Everything `addDocs` adds comes from the posting list. -/
theorem mem_addDocs {cap : ℕ} (pl : List (ℕ × ℕ)) :
    ∀ {c : Finset ℕ} {x : ℕ}, x ∈ (addDocs cap pl c).1 →
      x ∈ c ∨ x ∈ pl.map Prod.fst := by
  induction pl with
  | nil => exact fun h => Or.inl h
  | cons e rest ih =>
    intro c x h
    by_cases hle : cap ≤ (insert e.1 c).card
    · simp only [addDocs, if_pos hle] at h
      rcases Finset.mem_insert.1 h with h | h
      · exact Or.inr (by simp [h])
      · exact Or.inl h
    · simp only [addDocs, if_neg hle] at h
      rcases ih h with h | h
      · rcases Finset.mem_insert.1 h with h | h
        · exact Or.inr (by simp [h])
        · exact Or.inl h
      · exact Or.inr (by simp [h])

/-- Everything `buildLoop` adds comes from a truncated posting list of
one of the processed terms. -/
theorem mem_buildLoop {idx : InvIndex} {cap : ℕ} (ts : List (ℕ × String)) :
    ∀ {c : Finset ℕ} {x : ℕ}, x ∈ buildLoop idx cap ts c →
      x ∈ c ∨ ∃ p ∈ ts,
        x ∈ ((read_posting_list idx p.2).take MAX_POSTINGS_PER_TERM).map Prod.fst := by
  induction ts with
  | nil => exact fun h => Or.inl h
  | cons p rest ih =>
    intro c x h
    by_cases hr : (addDocs cap
        ((read_posting_list idx p.2).take MAX_POSTINGS_PER_TERM) c).2
    · simp only [buildLoop, if_pos hr] at h
      rcases mem_addDocs _ h with h | h
      · exact Or.inl h
      · exact Or.inr ⟨p, by simp, h⟩
    · simp only [buildLoop, if_neg hr] at h
      rcases ih h with h | h
      · rcases mem_addDocs _ h with h | h
        · exact Or.inl h
        · exact Or.inr ⟨p, by simp, h⟩
      · obtain ⟨q, hq, hx⟩ := h
        exact Or.inr ⟨q, List.mem_cons_of_mem _ hq, hx⟩

/-- A posting list whose length exceeds `MAX_POSTINGS_PER_TERM`. -/
def bigPL : List (ℕ × ℕ) := (List.range 50001).map fun i => (i, 1)

def idxBig : InvIndex := ⟨[("t", 50001)], [("t", bigPL)]⟩

theorem bigPL_fst : bigPL.map Prod.fst = List.range 50001 := by
  rw [bigPL, List.map_map]
  have h : (Prod.fst ∘ fun i : ℕ => (i, (1 : ℕ))) = id := rfl
  rw [h, List.map_id]

theorem read_idxBig : read_posting_list idxBig "t" = bigPL := by
  have hlk : lookupO idxBig.postings "t" = some bigPL := rfl
  unfold read_posting_list lookupD
  rw [hlk]
  exact Option.getD_some

theorem fullUnionSpec_idxBig :
    fullUnionSpec idxBig ["t"] = (List.range 50001).toFinset := by
  have hfil : ((["t"] : List String).dedup.filter (inVocab idxBig)) = ["t"] := by
    decide
  unfold fullUnionSpec
  rw [hfil]
  have hbind : (["t"] : List String).flatMap
      (fun t => (read_posting_list idxBig t).map Prod.fst)
      = bigPL.map Prod.fst := by
    simp only [List.flatMap_cons, List.flatMap_nil, List.append_nil, read_idxBig]
  rw [hbind, bigPL_fst]

theorem bigPL_take_fst :
    (bigPL.take MAX_POSTINGS_PER_TERM).map Prod.fst = List.range 50000 := by
  have h1 : bigPL.take MAX_POSTINGS_PER_TERM
      = (List.range 50000).map fun i => (i, 1) := by
    have h2 : MAX_POSTINGS_PER_TERM = 50000 := rfl
    rw [bigPL, ← List.map_take, h2, List.take_range]
    norm_num
  rw [h1, List.map_map]
  have h3 : (Prod.fst ∘ fun i : ℕ => (i, (1 : ℕ))) = id := rfl
  rw [h3, List.map_id]

attribute [irreducible] bigPL

/-- Every member of `build_candidates` comes from the truncated posting
list of one of the sorted query terms. -/
theorem mem_build_candidates {idx : InvIndex} {tokens : List String}
    {cap x : ℕ} (h : x ∈ build_candidates idx tokens cap) :
    ∃ p ∈ sortedTerms idx tokens,
      x ∈ ((read_posting_list idx p.2).take MAX_POSTINGS_PER_TERM).map Prod.fst := by
  unfold build_candidates at h
  by_cases ht : tokens = []
  · rw [if_pos ht] at h
    exact absurd h (Finset.not_mem_empty _)
  · rw [if_neg ht] at h
    rcases mem_buildLoop _ h with h | h
    · exact absurd h (Finset.not_mem_empty _)
    · exact h

/-- C2 counterexample: with a cap (60000) at least the corpus size
(50001 documents), `build_candidates` still misses doc 50000 of the
full union, because of the per-term truncation
`pl[:MAX_POSTINGS_PER_TERM]` (50000). -/
theorem build_candidates_misses_truncated_posting :
    (fullUnionSpec idxBig ["t"]).card ≤ 60000 ∧
    50000 ∈ fullUnionSpec idxBig ["t"] ∧
    50000 ∉ build_candidates idxBig ["t"] 60000 := by
  refine ⟨?_, ?_, fun hmem => ?_⟩
  · rw [fullUnionSpec_idxBig]
    refine le_trans (List.toFinset_card_le (List.range 50001)) ?_
    rw [List.length_range]
    norm_num
  · rw [fullUnionSpec_idxBig, List.mem_toFinset]
    exact List.mem_range.2 (by norm_num)
  · obtain ⟨p, hp, hx⟩ := mem_build_candidates hmem
    have hst : sortedTerms idxBig ["t"] = [(50001, "t")] := by decide
    rw [hst] at hp
    rcases List.mem_singleton.1 hp with rfl
    rw [read_idxBig, bigPL_take_fst] at hx
    exact absurd (List.mem_range.1 hx) (by norm_num)

/-- Per-term doc-id sets and their union over a term list, as
accumulated by `buildLoop`. -/
def plIds (idx : InvIndex) (t : String) : Finset ℕ :=
  ((read_posting_list idx t).map Prod.fst).toFinset

def unionOf (idx : InvIndex) (ts : List (ℕ × String)) : Finset ℕ :=
  ts.foldr (fun p acc => plIds idx p.2 ∪ acc) ∅

/-- When the target set fits under the cap, `addDocs` collects exactly
all doc ids of the posting list; an early return can only happen at
cap-many collected elements. -/
theorem addDocs_full {cap : ℕ} (pl : List (ℕ × ℕ)) :
    ∀ {c : Finset ℕ}, (c ∪ (pl.map Prod.fst).toFinset).card ≤ cap →
      (addDocs cap pl c).1 = c ∪ (pl.map Prod.fst).toFinset ∧
        ((addDocs cap pl c).2 = true → cap ≤ (addDocs cap pl c).1.card) := by
  induction pl with
  | nil =>
    intro c h
    refine ⟨by simp [addDocs], ?_⟩
    simp [addDocs]
  | cons e rest ih =>
    intro c h
    have hset : c ∪ ((e :: rest).map Prod.fst).toFinset
        = insert e.1 c ∪ (rest.map Prod.fst).toFinset := by
      rw [List.map_cons, List.toFinset_cons, Finset.union_insert,
        Finset.insert_union]
    by_cases hle : cap ≤ (insert e.1 c).card
    · have hsub : insert e.1 c ⊆ c ∪ ((e :: rest).map Prod.fst).toFinset := by
        rw [hset]
        exact Finset.subset_union_left
      have heq : insert e.1 c = c ∪ ((e :: rest).map Prod.fst).toFinset :=
        Finset.eq_of_subset_of_card_le hsub (le_trans h hle)
      simp only [addDocs, if_pos hle]
      exact ⟨heq, fun _ => heq ▸ hle⟩
    · simp only [addDocs, if_neg hle]
      rw [hset] at h ⊢
      exact ih h

/-- When the whole union fits under the cap and no posting list is
truncated, `buildLoop` collects exactly the union. -/
theorem buildLoop_full {idx : InvIndex} {cap : ℕ} :
    ∀ ts : List (ℕ × String),
      (∀ p ∈ ts, (read_posting_list idx p.2).length ≤ MAX_POSTINGS_PER_TERM) →
      ∀ c : Finset ℕ, (c ∪ unionOf idx ts).card ≤ cap →
        buildLoop idx cap ts c = c ∪ unionOf idx ts := by
  intro ts
  induction ts with
  | nil =>
    intro _ c _
    simp [buildLoop, unionOf]
  | cons p rest ih =>
    intro hlen c h
    have htake : (read_posting_list idx p.2).take MAX_POSTINGS_PER_TERM
        = read_posting_list idx p.2 :=
      List.take_of_length_le (hlen p (List.mem_cons_self _ _))
    have hassoc : c ∪ unionOf idx (p :: rest)
        = (c ∪ plIds idx p.2) ∪ unionOf idx rest := by
      show c ∪ (plIds idx p.2 ∪ unionOf idx rest) = _
      rw [Finset.union_assoc]
    have hcard1 : (c ∪ (((read_posting_list idx p.2).map Prod.fst).toFinset)).card ≤ cap := by
      refine le_trans (Finset.card_le_card ?_) h
      rw [hassoc]
      exact Finset.subset_union_left
    obtain ⟨hfull, hflag⟩ := addDocs_full (read_posting_list idx p.2) hcard1
    by_cases hfl : (addDocs cap (read_posting_list idx p.2) c).2
    · have hcap2 : cap ≤ (addDocs cap (read_posting_list idx p.2) c).1.card :=
        hflag hfl
      have hsub2 : (addDocs cap (read_posting_list idx p.2) c).1
          ⊆ c ∪ unionOf idx (p :: rest) := by
        rw [hfull, hassoc]
        exact Finset.subset_union_left
      have := Finset.eq_of_subset_of_card_le hsub2 (le_trans h hcap2)
      simp only [buildLoop, htake, if_pos hfl]
      exact this
    · simp only [buildLoop, htake, if_neg hfl]
      rw [hfull, hassoc]
      have hrest : ∀ q ∈ rest,
          (read_posting_list idx q.2).length ≤ MAX_POSTINGS_PER_TERM :=
        fun q hq => hlen q (List.mem_cons_of_mem _ hq)
      have hcard2 : ((c ∪ plIds idx p.2) ∪ unionOf idx rest).card ≤ cap := by
        rw [← hassoc]; exact h
      exact ih hrest _ hcard2

theorem unionOf_cons (idx : InvIndex) (p : ℕ × String) (ts : List (ℕ × String)) :
    unionOf idx (p :: ts) = plIds idx p.2 ∪ unionOf idx ts := rfl

theorem unionOf_perm {idx : InvIndex} {ts ts' : List (ℕ × String)}
    (h : ts.Perm ts') : unionOf idx ts = unionOf idx ts' := by
  induction h with
  | nil => rfl
  | cons x _ ih => rw [unionOf_cons, unionOf_cons, ih]
  | swap x y l =>
    rw [unionOf_cons, unionOf_cons, unionOf_cons, unionOf_cons,
      ← Finset.union_assoc, ← Finset.union_assoc,
      Finset.union_comm (plIds idx y.2) (plIds idx x.2)]
  | trans _ _ ih1 ih2 => rw [ih1, ih2]

/-- The union over the df-filtered terms equals the spec-side union. -/
theorem unionOf_filterMap (idx : InvIndex) (l : List String) :
    unionOf idx (l.filterMap (candKey idx))
    = ((l.filter (inVocab idx)).flatMap
      fun t => (read_posting_list idx t).map Prod.fst).toFinset := by
  induction l with
  | nil => rfl
  | cons t l ih =>
    rw [List.filterMap_cons, List.filter_cons]
    cases hdf : lookupO idx.df t with
    | none =>
      have h1 : candKey idx t = none := by simp [candKey, hdf]
      have h2 : inVocab idx t = false := by simp [inVocab, hdf]
      rw [h1, h2]
      simpa using ih
    | some d =>
      by_cases hd : d = 0
      · have h1 : candKey idx t = none := by simp [candKey, hdf, hd]
        have h2 : inVocab idx t = false := by simp [inVocab, hdf, hd]
        rw [h1, h2]
        simpa using ih
      · have h1 : candKey idx t = some (d, t) := by simp [candKey, hdf, hd]
        have h2 : inVocab idx t = true := by simp [inVocab, hdf, hd]
        rw [h1, h2]
        simp only [if_true]
        rw [List.flatMap_cons, List.toFinset_append, ← ih]
        rfl

/-- C2 amended: `build_candidates` equals the full union of
in-vocabulary posting-list doc ids provided the cap is large enough to
hold it AND no posting list exceeds `MAX_POSTINGS_PER_TERM` (the
original claim omits the second condition, which the per-term
truncation makes necessary). -/
theorem build_candidates_eq_fullUnion (idx : InvIndex) (tokens : List String)
    (cap : ℕ) (hcap : (fullUnionSpec idx tokens).card ≤ cap)
    (hlen : ∀ q ∈ idx.postings, q.2.length ≤ MAX_POSTINGS_PER_TERM) :
    build_candidates idx tokens cap = fullUnionSpec idx tokens := by
  by_cases ht : tokens = []
  · subst ht
    rfl
  · rw [build_candidates, if_neg ht]
    have hperm : (sortedTerms idx tokens).Perm
        (tokens.dedup.filterMap (candKey idx)) :=
      List.perm_insertionSort _ _
    have hu : unionOf idx (sortedTerms idx tokens) = fullUnionSpec idx tokens := by
      rw [unionOf_perm hperm, unionOf_filterMap]
      rfl
    have hlen' : ∀ p ∈ sortedTerms idx tokens,
        (read_posting_list idx p.2).length ≤ MAX_POSTINGS_PER_TERM := by
      intro p _
      unfold read_posting_list lookupD
      cases hq : lookupO idx.postings p.2 with
      | none => simp
      | some pl => simpa using hlen _ (mem_of_lookupO hq)
    have hcard0 : ((∅ : Finset ℕ) ∪ unionOf idx (sortedTerms idx tokens)).card ≤ cap := by
      rw [Finset.empty_union, hu]
      exact hcap
    have hres := buildLoop_full (sortedTerms idx tokens) hlen' ∅ hcard0
    rw [hres, Finset.empty_union, hu]

/-- The concrete index of the amended-C2 witness. -/
def idxTiny : InvIndex := ⟨[("a", 1)], [("a", [(3, 1)])]⟩

/-- Witness for the amended C2. -/
theorem build_candidates_eq_fullUnion_witness :
    ((fullUnionSpec idxTiny ["a"]).card ≤ 10 ∧
      ∀ q ∈ idxTiny.postings, q.2.length ≤ MAX_POSTINGS_PER_TERM) ∧
    build_candidates idxTiny ["a"] 10 = fullUnionSpec idxTiny ["a"] :=
  ⟨⟨by decide, by decide⟩,
    build_candidates_eq_fullUnion idxTiny ["a"] 10 (by decide) (by decide)⟩

/-! ## Claim C5 — the body-field TF-IDF formula -/

/-- C5: for every query term with query count `qtf` and truthy document
frequency `df` in the body index, each posting `(doc, tf)` of the term
with `doc` allowed by the candidate restriction contributes exactly
`((1+log10 qtf)*idf) * ((1+log10 tf)*idf)` with
`idf = log10((N+1)/(df+1))`, and a document's final body score is the
sum of these contributions over all query terms. -/
theorem tfidf_body_scores_formula (idx : InvIndex) (tokens : List String)
    (cands : Option (Finset ℕ)) (doc : ℕ) :
    lookupD (tfidf_body_scores idx tokens cands) doc 0
      = ((counter tokens).map fun p =>
          match lookupO idx.df p.1 with
          | none => 0
          | some dfv =>
            if dfv = 0 then 0
            else
              ((read_posting_list idx p.1).map fun e =>
                if allowedB cands e.1 ∧ e.1 = doc then wq p.2 dfv * wd e.2 dfv
                else 0).sum).sum := by
  rw [tfidf_lookup]
  rfl

/-! ## Claim C6 — scorers are nonnegative with zero defaults -/

theorem tf_pos {idx : InvIndex} (htf : ∀ q ∈ idx.postings, ∀ e ∈ q.2, 1 ≤ e.2)
    {t : String} {e : ℕ × ℕ} (he : e ∈ read_posting_list idx t) : 1 ≤ e.2 := by
  unfold read_posting_list lookupD at he
  cases hq : lookupO idx.postings t with
  | none => rw [hq] at he; simp at he
  | some pl =>
    rw [hq] at he
    rw [Option.getD_some] at he
    exact htf _ (mem_of_lookupO hq) _ he

theorem wq_mul_wd_nonneg {qtf tf df : ℕ} (hq : 1 ≤ qtf) (ht : 1 ≤ tf) :
    0 ≤ wq qtf df * wd tf df := by
  have h1 : 0 ≤ log10 (qtf : ℝ) :=
    Real.logb_nonneg (by norm_num) (by exact_mod_cast hq)
  have h2 : 0 ≤ log10 (tf : ℝ) :=
    Real.logb_nonneg (by norm_num) (by exact_mod_cast ht)
  have heq : wq qtf df * wd tf df
      = ((1 + log10 (qtf : ℝ)) * (1 + log10 (tf : ℝ))) * (idf df * idf df) := by
    unfold wq wd
    ring
  rw [heq]
  exact mul_nonneg (mul_nonneg (by linarith) (by linarith)) (mul_self_nonneg _)

/-- C6: given well-formed posting entries (term frequency at least 1),
neither scorer ever produces a negative value, and a document absent
from all the query terms' posting lists gets the map-default 0 from
both scorers. -/
theorem scorers_nonneg_and_default (idx : InvIndex) (tokens : List String)
    (cands : Option (Finset ℕ)) (doc : ℕ)
    (htf : ∀ q ∈ idx.postings, ∀ e ∈ q.2, 1 ≤ e.2) :
    0 ≤ lookupD (tfidf_body_scores idx tokens cands) doc 0
    ∧ 0 ≤ lookupD (binary_match_count idx tokens cands) doc 0
    ∧ ((∀ t ∈ tokens, doc ∉ (read_posting_list idx t).map Prod.fst) →
        lookupD (tfidf_body_scores idx tokens cands) doc 0 = 0
        ∧ lookupD (binary_match_count idx tokens cands) doc 0 = 0) := by
  refine ⟨?_, Nat.zero_le _, fun habs => ⟨?_, ?_⟩⟩
  · rw [tfidf_lookup]
    refine List.sum_nonneg ?_
    intro x hx
    obtain ⟨p, hp, rfl⟩ := List.mem_map.1 hx
    unfold bodyTermContrib
    cases hdf : lookupO idx.df p.1 with
    | none => exact le_refl 0
    | some dfv =>
      dsimp only
      by_cases h0 : dfv = 0
      · rw [if_pos h0]
      · rw [if_neg h0]
        refine List.sum_nonneg ?_
        intro y hy
        obtain ⟨e, he, rfl⟩ := List.mem_map.1 hy
        by_cases hc : allowedB cands e.1 ∧ e.1 = doc
        · rw [if_pos hc]
          exact wq_mul_wd_nonneg (counter_pos hp) (tf_pos htf he)
        · rw [if_neg hc]
  · rw [tfidf_lookup]
    refine List.sum_eq_zero ?_
    intro x hx
    obtain ⟨p, hp, rfl⟩ := List.mem_map.1 hx
    unfold bodyTermContrib
    cases hdf : lookupO idx.df p.1 with
    | none => rfl
    | some dfv =>
      dsimp only
      by_cases h0 : dfv = 0
      · rw [if_pos h0]
      · rw [if_neg h0]
        refine List.sum_eq_zero ?_
        intro y hy
        obtain ⟨e, he, rfl⟩ := List.mem_map.1 hy
        have hne : ¬ (allowedB cands e.1 ∧ e.1 = doc) := by
          rintro ⟨-, rfl⟩
          exact habs p.1 (List.mem_dedup.1 (by
            obtain ⟨t, ht, h⟩ := List.mem_map.1 hp
            cases h
            exact ht)) (List.mem_map_of_mem _ he)
        rw [if_neg hne]
  · rw [binary_lookup]
    refine List.sum_eq_zero ?_
    intro x hx
    obtain ⟨t, ht, rfl⟩ := List.mem_map.1 hx
    unfold binTermContrib
    by_cases hdf : (lookupO idx.df t).isSome
    · rw [if_pos hdf]
      refine List.sum_eq_zero ?_
      intro y hy
      obtain ⟨e, he, rfl⟩ := List.mem_map.1 hy
      have hne : ¬ (allowedB cands e.1 ∧ e.1 = doc) := by
        rintro ⟨-, rfl⟩
        exact habs t (List.mem_dedup.1 ht) (List.mem_map_of_mem _ he)
      rw [if_neg hne]
    · rw [if_neg hdf]

/-- The concrete index of the C6 witness. -/
def idxScore : InvIndex := ⟨[("t", 1)], [("t", [(5, 2)])]⟩

/-- Witness for C6 at a concrete index, query and document. -/
theorem scorers_nonneg_and_default_witness :
    (∀ q ∈ idxScore.postings, ∀ e ∈ q.2, 1 ≤ e.2) ∧
    (∀ t ∈ ["u"], 9 ∉ (read_posting_list idxScore t).map Prod.fst) ∧
    0 ≤ lookupD (tfidf_body_scores idxScore ["t"] none) 5 0 ∧
    lookupD (binary_match_count idxScore ["u"] none) 9 0 = 0 :=
  ⟨by decide, by decide,
    (scorers_nonneg_and_default idxScore ["t"] none 5 (by decide)).1,
    ((scorers_nonneg_and_default idxScore ["u"] none 9 (by decide)).2.2
      (by decide)).2⟩

/-! ## Claim C7 — title/anchor scoring counts distinct matching terms -/

theorem sum_ite_one (p : α → Bool) (l : List α) :
    (l.map fun a => if p a then (1 : ℕ) else 0).sum = (l.filter p).length := by
  induction l with
  | nil => rfl
  | cons a l ih =>
    rw [List.map_cons, List.sum_cons, List.filter_cons]
    by_cases h : p a
    · rw [if_pos h, if_pos h, List.length_cons, ih]
      omega
    · rw [if_neg h, if_neg h, ih]
      omega

/-- With duplicate-free doc ids, the inner accumulation of
`binary_match_count` contributes 1 exactly when the document is allowed
and appears in the posting list. -/
theorem sum_ite_nodup (cands : Option (Finset ℕ)) (doc : ℕ)
    (pl : List (ℕ × ℕ)) (hnd : (pl.map Prod.fst).Nodup) :
    (pl.map fun e => if allowedB cands e.1 ∧ e.1 = doc then (1 : ℕ) else 0).sum
      = if allowedB cands doc ∧ doc ∈ pl.map Prod.fst then 1 else 0 := by
  induction pl with
  | nil => simp
  | cons e pl ih =>
    rw [List.map_cons] at hnd
    obtain ⟨hne, hnd'⟩ := List.nodup_cons.1 hnd
    rw [List.map_cons, List.sum_cons, ih hnd', List.map_cons]
    by_cases hd : e.1 = doc
    · have hmem : doc ∉ pl.map Prod.fst := hd ▸ hne
      by_cases ha : allowedB cands doc
      · rw [if_pos ⟨hd ▸ ha, hd⟩, if_neg (fun h => hmem h.2),
          if_pos ⟨ha, by rw [← hd]; exact List.mem_cons_self _ _⟩]
      · rw [if_neg (fun h => ha (hd ▸ h.1)), if_neg (fun h => ha h.1),
          if_neg (fun h => ha h.1)]
    · rw [if_neg (fun h => hd h.2)]
      by_cases hm : doc ∈ pl.map Prod.fst
      · by_cases ha : allowedB cands doc
        · rw [if_pos ⟨ha, hm⟩, if_pos ⟨ha, List.mem_cons_of_mem _ hm⟩]
        · rw [if_neg (fun h => ha h.1), if_neg (fun h => ha h.1)]
      · have hm2 : doc ∉ (e.1 :: pl.map Prod.fst) := by
          intro h
          rcases List.mem_cons.1 h with h | h
          · exact hd h.symm
          · exact hm h
        rw [if_neg (fun h => hm h.2), if_neg (fun h => hm2 h.2)]

/-- C7: a document's title/anchor binary score is the number of distinct
query terms present in the field's df dict whose posting list contains
the document (each counting exactly 1, independent of term frequency
and of query repetition), provided the document passes the candidate
restriction; otherwise it is 0.  The hypothesis asks for duplicate-free
doc ids inside each posting list, as the data model prescribes. -/
theorem binary_count_distinct (idx : InvIndex) (tokens : List String)
    (cands : Option (Finset ℕ)) (doc : ℕ)
    (hnd : ∀ q ∈ idx.postings, (q.2.map Prod.fst).Nodup) :
    lookupD (binary_match_count idx tokens cands) doc 0
      = if allowedB cands doc then
          (tokens.dedup.filter fun t =>
            (lookupO idx.df t).isSome
              && decide (doc ∈ (read_posting_list idx t).map Prod.fst)).length
        else 0 := by
  have hndr : ∀ t, ((read_posting_list idx t).map Prod.fst).Nodup := by
    intro t
    unfold read_posting_list lookupD
    cases hq : lookupO idx.postings t with
    | none => simp
    | some pl =>
      rw [Option.getD_some]
      exact hnd _ (mem_of_lookupO hq)
  rw [binary_lookup]
  by_cases ha : allowedB cands doc
  · rw [if_pos ha, ← sum_ite_one]
    congr 1
    refine List.map_congr_left ?_
    intro t _
    unfold binTermContrib
    by_cases hdf : (lookupO idx.df t).isSome
    · rw [if_pos hdf, sum_ite_nodup cands doc _ (hndr t)]
      by_cases hm : doc ∈ (read_posting_list idx t).map Prod.fst
      · rw [if_pos ⟨ha, hm⟩, if_pos (by rw [hdf, decide_eq_true hm]; rfl)]
      · rw [if_neg (fun h => hm h.2),
          if_neg (by rw [hdf, decide_eq_false hm]; exact Bool.false_ne_true)]
    · rw [if_neg hdf,
        if_neg (by rw [Bool.not_eq_true] at hdf ⊢; rw [hdf]; rfl)]
  · rw [if_neg ha]
    refine List.sum_eq_zero ?_
    intro x hx
    obtain ⟨t, _, rfl⟩ := List.mem_map.1 hx
    unfold binTermContrib
    by_cases hdf : (lookupO idx.df t).isSome
    · rw [if_pos hdf, sum_ite_nodup cands doc _ (hndr t), if_neg (fun h => ha h.1)]
    · rw [if_neg hdf]

/-- The concrete index of the C7 witness: the spec's scenario — the doc
has "obama" (with in-title frequency 5) but not "president", and the
query repeats "obama"; the title score is 1, not 2. -/
def idxTitle : InvIndex := ⟨[("obama", 1)], [("obama", [(7, 5)])]⟩

/-- Witness for C7 at the spec's title-scoring scenario. -/
theorem binary_count_distinct_witness :
    (∀ q ∈ idxTitle.postings, (q.2.map Prod.fst).Nodup) ∧
    lookupD (binary_match_count idxTitle ["obama", "president", "obama"] none) 7 0 = 1 :=
  ⟨by decide,
    (binary_count_distinct idxTitle ["obama", "president", "obama"] none 7
      (by decide)).trans (by decide)⟩

/-! ## Claim C9 — AP@K lies in [0, 1] on duplicate-free rankings -/

theorem apLoop_nonneg (rels : List String) :
    ∀ (ds : List String) (i hits : ℕ), 0 ≤ (apLoop rels ds i hits).2 := by
  intro ds
  induction ds with
  | nil => intro i hits; exact le_refl 0
  | cons d ds ih =>
    intro i hits
    by_cases hd : d ∈ rels
    · rw [apLoop, if_pos hd]
      have h1 : (0 : ℚ) ≤ ((hits : ℚ) + 1) / (i : ℚ) :=
        div_nonneg (by positivity) (by positivity)
      exact add_nonneg h1 (ih (i + 1) (hits + 1))
    · rw [apLoop, if_neg hd]
      exact ih (i + 1) hits

theorem apLoop_le (rels : List String) :
    ∀ (ds : List String) (i hits : ℕ), hits + 1 ≤ i →
      (apLoop rels ds i hits).2
        ≤ ((ds.filter fun d => decide (d ∈ rels)).length : ℚ) := by
  intro ds
  induction ds with
  | nil => intro i hits _; simp [apLoop]
  | cons d ds ih =>
    intro i hits hle
    rw [List.filter_cons]
    by_cases hd : d ∈ rels
    · rw [apLoop, if_pos hd, if_pos (decide_eq_true hd), List.length_cons]
      have hi : (1 : ℚ) ≤ (i : ℚ) := by
        have : 1 ≤ i := le_trans (Nat.le_add_left 1 hits) hle
        exact_mod_cast this
      have h1 : ((hits : ℚ) + 1) / (i : ℚ) ≤ 1 := by
        rw [div_le_one (by linarith)]
        exact_mod_cast hle
      have h2 := ih (i + 1) (hits + 1) (by omega)
      push_cast
      linarith
    · rw [apLoop, if_neg hd, if_neg (by simpa using hd)]
      exact ih (i + 1) hits (by omega)

theorem length_le_of_nodup_subset [DecidableEq α] {l r : List α}
    (hnd : l.Nodup) (hsub : ∀ x ∈ l, x ∈ r) : l.length ≤ r.length := by
  calc l.length = l.toFinset.card := (List.toFinset_card_of_nodup hnd).symm
    _ ≤ r.toFinset.card := Finset.card_le_card
        (fun x hx => List.mem_toFinset.2 (hsub x (List.mem_toFinset.1 hx)))
    _ ≤ r.length := List.toFinset_card_le r

/-- C9: with a non-empty relevant set, `k ≥ 1` and a duplicate-free
ranked list, `ap_at_k` is defined and lies in `[0, 1]`; the
duplicate-free hypothesis is needed — the second conjunct shows a
ranked list with a repeated document pushing AP above 1, since the code
does not deduplicate the ranked input before crediting hits. -/
theorem ap_at_k_bounds :
    (∀ (rels ranked : List String) (k : ℤ), rels ≠ [] → 1 ≤ k → ranked.Nodup →
      ∃ q, ap_at_k rels ranked k = some q ∧ 0 ≤ q ∧ q ≤ 1) ∧
    ap_at_k ["a"] ["a", "a"] 2 = some 2 := by
  constructor
  · intro rels ranked k hrels hk hnd
    have hlen : 1 ≤ rels.length := List.length_pos.2 hrels
    have hdenom : ¬ min (rels.length : ℤ) k = 0 := by omega
    rw [ap_at_k, if_neg hrels, if_neg hdenom]
    have hdpos : (0 : ℚ) < ((min (rels.length : ℤ) k : ℤ) : ℚ) := by
      have : (1 : ℤ) ≤ min (rels.length : ℤ) k := by omega
      exact_mod_cast lt_of_lt_of_le zero_lt_one (by exact_mod_cast this)
    refine ⟨_, rfl, div_nonneg (apLoop_nonneg _ _ _ _) (le_of_lt hdpos), ?_⟩
    rw [div_le_one hdpos]
    have htop : pySlice k ranked = ranked.take k.toNat := by
      rw [pySlice, if_pos (by omega : (0:ℤ) ≤ k)]
    have hs := apLoop_le rels (pySlice k ranked) 1 0 (by omega)
    set top := pySlice k ranked with htopdef
    have hnd2 : (top.filter fun d => decide (d ∈ rels)).Nodup :=
      ((htop ▸ List.take_sublist k.toNat ranked).nodup hnd).filter _
    have hsub : ∀ x ∈ top.filter fun d => decide (d ∈ rels), x ∈ rels := by
      intro x hx
      have := List.of_mem_filter hx
      exact of_decide_eq_true this
    have hb1 : (top.filter fun d => decide (d ∈ rels)).length ≤ rels.length :=
      length_le_of_nodup_subset hnd2 hsub
    have hb2 : (top.filter fun d => decide (d ∈ rels)).length ≤ k.toNat := by
      refine le_trans (List.length_filter_le _ _) ?_
      rw [htop, List.length_take]
      exact min_le_left _ _
    have hmin : ((top.filter fun d => decide (d ∈ rels)).length : ℚ)
        ≤ ((min (rels.length : ℤ) k : ℤ) : ℚ) := by
      have hk' : ((top.filter fun d => decide (d ∈ rels)).length : ℤ) ≤ k := by
        have := Int.toNat_of_nonneg (by omega : (0:ℤ) ≤ k)
        omega
      have hr' : ((top.filter fun d => decide (d ∈ rels)).length : ℤ)
          ≤ (rels.length : ℤ) := by exact_mod_cast hb1
      have : ((top.filter fun d => decide (d ∈ rels)).length : ℤ)
          ≤ min (rels.length : ℤ) k := le_min hr' hk'
      exact_mod_cast this
    exact le_trans hs hmin
  · have h2 : apLoop ["a"] (pySlice 2 ["a", "a"]) 1 0 = (2, 2) := by
      norm_num [pySlice, apLoop, List.mem_singleton]
    rw [ap_at_k, if_neg (by decide), if_neg (by decide), h2]
    norm_num

/-- Witness for the universally quantified part of C9. -/
theorem ap_at_k_bounds_witness :
    ((["a"] : List String) ≠ [] ∧ (1 : ℤ) ≤ 1 ∧ (["a"] : List String).Nodup) ∧
    ∃ q, ap_at_k ["a"] ["a"] 1 = some q ∧ 0 ≤ q ∧ q ≤ 1 :=
  ⟨⟨by decide, by decide, by decide⟩,
    ap_at_k_bounds.1 ["a"] ["a"] 1 (by decide) (by decide) (by decide)⟩

/-! ## Claims C1 and C10 — the `/search` ranking -/

theorem map_fst_map_pair (g : ℕ → ℝ) (l : List ℕ) :
    ((l.map fun d => (d, g d)).map Prod.fst) = l := by
  rw [List.map_map]
  have h : (Prod.fst ∘ fun d : ℕ => (d, g d)) = id := rfl
  rw [h, List.map_id]

theorem filter_map_pair_fst_sublist (g : ℕ → ℝ) (q : ℕ × ℝ → Bool) (l : List ℕ) :
    (((l.map fun d => (d, g d)).filter q).map Prod.fst).Sublist l := by
  conv_rhs => rw [← map_fst_map_pair g l]
  exact (List.filter_sublist _).map Prod.fst

/-- The doc ids of the `ranked` list form a sublist of the candidate
enumeration. -/
theorem searchRanked_fst_sublist (S : Indexes) (tokens : List String)
    (enum : List ℕ) :
    ((searchRanked S tokens enum).map Prod.fst).Sublist enum := by
  unfold searchRanked
  dsimp only
  exact filter_map_pair_fst_sublist _ _ enum

/-- Every entry of `ranked` has positive fused score. -/
theorem searchRanked_pos (S : Indexes) (tokens : List String) (enum : List ℕ) :
    ∀ p ∈ searchRanked S tokens enum, 0 < p.2 := by
  intro p hp
  unfold searchRanked at hp
  dsimp only at hp
  exact of_decide_eq_true ((List.mem_filter.1 hp).2)

/-- C10: for any duplicate-free candidate enumeration, the `/search`
result list mentions each document at most once, has at most
`MAX_RESULTS` (100) entries, and every returned document carries a
strictly positive fused score. -/
theorem search_invariants (S : Indexes) (tokens : List String) (enum : List ℕ)
    (h : enum.Nodup) :
    ((search S tokens enum).map Prod.fst).Nodup ∧
    (search S tokens enum).length ≤ MAX_RESULTS ∧
    ∀ p ∈ search S tokens enum, 0 < p.2 := by
  have hperm := List.perm_insertionSort scoreGe (searchRanked S tokens enum)
  refine ⟨?_, ?_, ?_⟩
  · have hnd1 : ((searchRanked S tokens enum).map Prod.fst).Nodup :=
      (searchRanked_fst_sublist S tokens enum).nodup h
    have hnd2 : ((List.insertionSort scoreGe
        (searchRanked S tokens enum)).map Prod.fst).Nodup :=
      ((hperm.map Prod.fst).nodup_iff).2 hnd1
    exact ((List.take_sublist _ _).map Prod.fst).nodup hnd2
  · rw [search, List.length_take]
    exact min_le_left _ _
  · intro p hp
    rw [search] at hp
    exact searchRanked_pos S tokens enum p
      (hperm.mem_iff.1 (List.mem_of_mem_take hp))

/-- Witness for C10 at a concrete enumeration and empty indexes. -/
theorem search_invariants_witness :
    ([5, 9] : List ℕ).Nodup ∧
    (((search ⟨⟨[], []⟩, ⟨[], []⟩, ⟨[], []⟩⟩ [] [5, 9]).map Prod.fst).Nodup ∧
      (search ⟨⟨[], []⟩, ⟨[], []⟩, ⟨[], []⟩⟩ [] [5, 9]).length ≤ MAX_RESULTS ∧
      ∀ p ∈ search ⟨⟨[], []⟩, ⟨[], []⟩, ⟨[], []⟩⟩ [] [5, 9], 0 < p.2) :=
  ⟨by decide, search_invariants ⟨⟨[], []⟩, ⟨[], []⟩, ⟨[], []⟩⟩ [] [5, 9] (by decide)⟩

/-- C1 amended: for every candidate enumeration, the `/search` output is
exactly the first `MAX_RESULTS` entries of the stable descending sort
(by fused score) of the positively-scored candidate list; its scores
are non-increasing, and every entry cut off by the cap scores no more
than every returned entry.  Ties keep the order of the candidate-set
enumeration, not ascending doc id. -/
theorem search_sorted_top (S : Indexes) (tokens : List String) (enum : List ℕ) :
    search S tokens enum
        = (List.insertionSort scoreGe (searchRanked S tokens enum)).take MAX_RESULTS
    ∧ (List.insertionSort scoreGe (searchRanked S tokens enum)).Perm
        (searchRanked S tokens enum)
    ∧ (search S tokens enum).Sorted scoreGe
    ∧ ∀ p ∈ search S tokens enum,
        ∀ q ∈ (List.insertionSort scoreGe (searchRanked S tokens enum)).drop MAX_RESULTS,
          q.2 ≤ p.2 := by
  have hsorted := List.sorted_insertionSort scoreGe (searchRanked S tokens enum)
  refine ⟨rfl, List.perm_insertionSort _ _, ?_, ?_⟩
  · exact List.Pairwise.sublist (List.take_sublist _ _) hsorted
  · intro p hp q hq
    have hsplit := List.take_append_drop MAX_RESULTS
      (List.insertionSort scoreGe (searchRanked S tokens enum))
    rw [← hsplit] at hsorted
    exact (List.pairwise_append.1 hsorted).2.2 p hp q hq

/-! ### C1 counterexample: ties follow the set-enumeration order -/

/-- Two documents with identical body profiles for the single query
term, so their fused scores coincide. -/
def idxTie : Indexes :=
  ⟨⟨[("t", 2)], [("t", [(2, 1), (1, 1)])]⟩, ⟨[], []⟩, ⟨[], []⟩⟩

/-- The common fused score of both documents. -/
noncomputable def sTie : ℝ := wq 1 2 * wd 1 2

theorem idf2_pos : 0 < idf 2 := by
  unfold idf log10 N_CORPUS
  refine Real.logb_pos (by norm_num) ?_
  push_cast
  norm_num

theorem sTie_pos : 0 < sTie := by
  have h : sTie = idf 2 * idf 2 := by
    unfold sTie wq wd log10
    rw [Nat.cast_one, Real.logb_one]
    ring
  rw [h]
  exact mul_pos idf2_pos idf2_pos

theorem bodyTie (d : ℕ) (hd : d = 2 ∨ d = 1) :
    lookupD (tfidf_body_scores idxTie.body ["t"]
      (some (build_candidates idxTie.body ["t"] MAX_CANDIDATES))) d 0 = sTie := by
  have hc : build_candidates idxTie.body ["t"] MAX_CANDIDATES = {2, 1} := by
    decide
  rw [tfidf_lookup]
  have hcounter : counter ["t"] = [("t", 1)] := by decide
  rw [hcounter, List.map_cons, List.map_nil, List.sum_cons, List.sum_nil, add_zero]
  unfold bodyTermContrib
  rw [show lookupO idxTie.body.df "t" = some 2 from rfl]
  dsimp only
  rw [if_neg (by norm_num : ¬ (2 : ℕ) = 0)]
  rw [show read_posting_list idxTie.body "t" = [(2, 1), (1, 1)] from rfl]
  rw [List.map_cons, List.map_cons, List.map_nil, List.sum_cons, List.sum_cons,
    List.sum_nil, add_zero]
  dsimp only
  have ha2 : allowedB (some (build_candidates idxTie.body ["t"] MAX_CANDIDATES)) 2
      = true := by rw [hc]; decide
  have ha1 : allowedB (some (build_candidates idxTie.body ["t"] MAX_CANDIDATES)) 1
      = true := by rw [hc]; decide
  rcases hd with rfl | rfl
  · rw [if_pos ⟨ha2, rfl⟩, if_neg (by rintro ⟨-, h2⟩; norm_num at h2), add_zero]
    rfl
  · rw [if_neg (by rintro ⟨-, h2⟩; norm_num at h2), if_pos ⟨ha1, rfl⟩, zero_add]
    rfl

theorem titleTie (d : ℕ) :
    lookupD (binary_match_count idxTie.title ["t"]
      (some (build_candidates idxTie.body ["t"] MAX_CANDIDATES))) d 0 = 0 := rfl

theorem anchorTie (d : ℕ) :
    lookupD (binary_match_count idxTie.anchor ["t"]
      (some (build_candidates idxTie.body ["t"] MAX_CANDIDATES))) d 0 = 0 := rfl

theorem searchRankedTie :
    searchRanked idxTie ["t"] [2, 1] = [(2, sTie), (1, sTie)] := by
  unfold searchRanked
  dsimp only
  rw [List.map_cons, List.map_cons, List.map_nil]
  rw [bodyTie 2 (Or.inl rfl), bodyTie 1 (Or.inr rfl), titleTie 2, titleTie 1,
    anchorTie 2, anchorTie 1]
  simp only [List.filter_cons, List.filter_nil, decide_eq_true_eq,
    Nat.cast_zero, mul_zero, add_zero, one_mul, sTie_pos, if_true]

theorem searchTie : search idxTie ["t"] [2, 1] = [(2, sTie), (1, sTie)] := by
  rw [search, searchRankedTie]
  simp only [List.insertionSort]
  rw [show List.orderedInsert scoreGe (1, sTie) [] = [(1, sTie)] from rfl]
  rw [List.orderedInsert, if_pos (show scoreGe (2, sTie) (1, sTie) from le_refl sTie)]
  rfl

/-- C1 counterexample: `[2, 1]` is a valid enumeration of the candidate
set `{1, 2}`, both returned entries carry the same fused score, and yet
doc 2 precedes doc 1 — `heapq.nlargest` keeps ties in the candidate
set's iteration order, not ascending doc-id order. -/
theorem search_ties_not_docid_ascending :
    (([2, 1] : List ℕ).Nodup ∧
      ([2, 1] : List ℕ).toFinset = build_candidates idxTie.body ["t"] MAX_CANDIDATES) ∧
    search idxTie ["t"] [2, 1] = [(2, sTie), (1, sTie)] :=
  ⟨⟨by decide, by decide⟩, searchTie⟩

/-! ## Claim C3 — the title/anchor endpoints DO cap at 100 results -/

/-- C3 amended: both single-field endpoints return the first
`MAX_RESULTS` (100) entries of the stable descending sort of the
positively-scored set by `(count, -doc_id)` — count descending, doc id
ascending on ties — rather than the entire set. -/
theorem single_field_top_props (S : Indexes) (tokens : List String) :
    (search_title_top S tokens
        = (List.insertionSort titleGe (search_title_scores S tokens)).take MAX_RESULTS
      ∧ (List.insertionSort titleGe (search_title_scores S tokens)).Perm
          (search_title_scores S tokens)
      ∧ (search_title_top S tokens).Sorted titleGe
      ∧ (search_title_top S tokens).length ≤ MAX_RESULTS)
    ∧ (search_anchor_top S tokens
        = (List.insertionSort titleGe (search_anchor_scores S tokens)).take MAX_RESULTS
      ∧ (List.insertionSort titleGe (search_anchor_scores S tokens)).Perm
          (search_anchor_scores S tokens)
      ∧ (search_anchor_top S tokens).Sorted titleGe
      ∧ (search_anchor_top S tokens).length ≤ MAX_RESULTS) := by
  refine ⟨⟨rfl, List.perm_insertionSort _ _, ?_, ?_⟩,
    ⟨rfl, List.perm_insertionSort _ _, ?_, ?_⟩⟩
  · exact List.Pairwise.sublist (List.take_sublist _ _)
      (List.sorted_insertionSort _ _)
  · rw [search_title_top, List.length_take]
    exact min_le_left _ _
  · exact List.Pairwise.sublist (List.take_sublist _ _)
      (List.sorted_insertionSort _ _)
  · rw [search_anchor_top, List.length_take]
    exact min_le_left _ _

/-- 101 documents, all matching the term in body and title. -/
def pl101 : List (ℕ × ℕ) := (List.range 101).map fun i => (i, 1)

def idx101 : Indexes :=
  ⟨⟨[("t", 101)], [("t", pl101)]⟩, ⟨[("t", 101)], [("t", pl101)]⟩, ⟨[], []⟩⟩

set_option maxRecDepth 20000 in
/-- C3 counterexample: 101 documents have a positive title score, but
`/search_title` returns only 100 of them — `heapq.nlargest(MAX_RESULTS,
...)` caps the single-field endpoints too, contradicting "no result
cap / the entire positively-scored set". -/
theorem search_title_caps_at_100 :
    (∀ p ∈ search_title_scores idx101 ["t"], 0 < p.2) ∧
    (search_title_scores idx101 ["t"]).length = 101 ∧
    (search_title_top idx101 ["t"]).length = 100 := by
  refine ⟨by decide, by decide, by decide⟩

end IR
